import Mathlib

/-!
# Lesson 4, pointers and arrays: `stringSort.c` and `voidPointer.c`

A shallow embedding of the two C programs of the repository and theorems
about them.

* `StringSort`: the comparator `compare`, the in-place sort `sortStrings`
  and the driver `main` of `src/snippets/stringSort.c`; beside them
  `specSort`, the insertion sort in the words of the specification, and
  `compareLog`, the loop of `compare` with a log of its reads.
* `VoidPointer`: the packed integer and the byte walk of
  `src/snippets/voidPointer.c`.

Conventions of the embedding.

* A C string is the list of its characters, each given by the value a plain
  `char` holds for it, which is never 0, the terminator. Whether plain
  `char` is signed is left to the host: a character of code 128 to 255 has
  the value `code - 256` where `char` is signed and the value `code` where
  it is unsigned; a 7-bit character has its code as value on every host.
  The type `CChar` holds the values of both kinds of host, so that a
  theorem about all strings holds on both. The object a `char *` points
  into is `bytes s`: the values, as the `int` a read `*p` yields, followed
  by one 0.
* A `char *` walking through a string is the list of the bytes from the
  pointed position to the end of the object: `*p` is the head, `p++` the
  tail. Reading through a pointer that left its object has no value, and
  the function reading it returns `none`.
* An array of strings is a list, indexed from 0; reads outside the list
  return `none`.
-/

namespace StringSort

/-- A character other than the terminator, as the value a plain `char` holds:
not 0, from -128 to 127 on a host where `char` is signed, from 1 to 255 on a
host where it is unsigned. -/
abbrev CChar := {v : Int // v ≠ 0 ∧ -128 ≤ v ∧ v ≤ 255}

/-- The content of a C string: its characters, none of them the terminator. -/
abbrev CStr := List CChar

/-- The code of a character, from 1 to 255: its value as `unsigned char`. -/
def code (c : CChar) : Nat :=
  (c.1 % 256).toNat

/-- The codes of the terminated sequence of a string: the codes of its
characters, then the terminator, of code 0. -/
def codes (s : CStr) : List Nat :=
  s.map code ++ [0]

/-- The character a host holds for the code `n`, from 1 to 255: of value `n`,
or of value `n - 256` when `n` is 128 or more and `char` is signed. -/
def ofCode (signedChar : Bool) (n : Nat) : Option CChar :=
  if h : 0 < n ∧ n < 128 then some ⟨(n : Int), by omega, by omega, by omega⟩
  else if h' : 128 ≤ n ∧ n < 256 then
    (if signedChar then some ⟨(n : Int) - 256, by omega, by omega, by omega⟩
     else some ⟨(n : Int), by omega, by omega, by omega⟩)
  else none

/-- The string a host holds for a sequence of codes from 1 to 255. -/
def ofCodes (signedChar : Bool) (ns : List Nat) : CStr :=
  ns.filterMap (ofCode signedChar)

/-- The bytes of the object holding the string, each as the `int` that a read
`*p` through a `char *` yields: the values of its characters, then the
terminator. -/
def bytes (s : CStr) : List Int :=
  s.map (fun c => c.1) ++ [0]

/-- The loop of `compare`, on the two pointers `a` and `b`:
`while (*a == *b) { a++; b++; if (*a == 0) return 0; } return *a - *b;`. -/
def compareAt : List Int → List Int → Option Int
  | x :: a, y :: b =>
    if x = y then
      match a.head? with
      | none => none
      | some x' => if x' = 0 then some 0 else compareAt a b
    else some (x - y)
  | _, _ => none

/-- The function `compare(a, b)` of `stringSort.c`. -/
def compare (a b : CStr) : Option Int :=
  compareAt (bytes a) (bytes b)

/-- The array during `sortStrings`, with the number of calls of `compare` and
the number of swaps done so far. -/
structure SortState where
  a : List CStr
  comparisons : Nat
  swaps : Nat
deriving DecidableEq

/-- The inner loop `for (m = n; m >= 1; m--)` of `sortStrings`, started at `m`:
compares `a[m]` with `a[m-1]` and swaps the two when the result is negative. -/
def innerLoop : Nat → SortState → Option SortState
  | 0, st => some st
  | m + 1, st =>
    match st.a[m + 1]?, st.a[m]? with
    | some x, some y =>
      match compare x y with
      | some c =>
        if c < 0 then
          innerLoop m ⟨(st.a.set m x).set (m + 1) y, st.comparisons + 1, st.swaps + 1⟩
        else
          innerLoop m ⟨st.a, st.comparisons + 1, st.swaps⟩
      | none => none
    | _, _ => none

/-- The outer loop `for (n = 0; n < size; n++)` of `sortStrings`: the inner
loop is run for `n = 0, 1, ..., size - 1` in turn (not at all when
`size <= 0`). -/
def outerLoop (size : Int) (st : SortState) : Option SortState :=
  (List.range size.toNat).foldlM (fun s n => innerLoop n s) st

/-- The function `sortStrings(a, size)` of `stringSort.c`; the result holds the
array it leaves. -/
def sortStrings (a : List CStr) (size : Int) : Option SortState :=
  outerLoop size ⟨a, 0, 0⟩

/-- The order the sort leaves between an element `u` and the next one `v`:
`compare(v, u)`, the test of the inner loop, returns a value that is not
negative. -/
def Ordered (u v : CStr) : Prop :=
  ∃ w, compare v u = some w ∧ 0 ≤ w

/-- The characters of a string literal of 7-bit characters, as are the
literals of the program: the value of each is its code, on every host. -/
def lit (s : String) : CStr :=
  s.toList.filterMap (fun c =>
    if h : 0 < c.toNat ∧ c.toNat < 128 then some ⟨(c.toNat : Int), by omega, by omega, by omega⟩
    else none)

/-- The text of a C string, as `printf("%s")` writes it. -/
def text (s : CStr) : String :=
  String.mk (s.map (fun c => Char.ofNat (code c)))

/-- The array `names` of `main`. -/
def names : List CStr := [lit "Cory", lit "Ross", lit "Gordon", lit "Deborah"]

/-- The loop `for (n = 0; n < 4; n++) printf("name %d: %s\n", n, names[n]);`
of `main`: the lines written, one per `printf`. -/
def printNames (a : List CStr) : Option (List String) :=
  (List.range 4).mapM (fun n => (a[n]?).map (fun s => "name " ++ toString n ++ ": " ++ text s))

/-- The program `main` of `stringSort.c`: the lines it writes to standard output. -/
def main : Option (List String) :=
  (sortStrings names 4).bind (fun st => printNames st.a)

/-- The backward walk of the insertion sort as the specification words it:
"repeatedly compare the element at the current position with its predecessor
and swap while out of order, walking backward until in order or the start of
the sequence is reached". The walk is at position `m`; it stops at the first
predecessor that is in order, where `sortStrings` goes on to `m = 1`. -/
def specWalk : Nat → List CStr → Option (List CStr)
  | 0, a => some a
  | m + 1, a =>
    match a[m + 1]?, a[m]? with
    | some x, some y =>
      match compare x y with
      | some c => if c < 0 then specWalk m ((a.set m x).set (m + 1) y) else some a
      | none => none
    | _, _ => none

/-- The insertion sort as the specification words it: "for each position `n`
from the start", the backward walk `specWalk` started at `n`. -/
def specSort (a : List CStr) (size : Int) : Option (List CStr) :=
  (List.range size.toNat).foldlM (fun s n => specWalk n s) a

/-- The loop of `compare` with the log of its reads. Both pointers are at index
`i` of their strings; an entry `(true, j)` is a read of `a` at index `j`, an
entry `(false, j)` a read of `b` at index `j`. The loop test reads `*a` and
`*b`, the test after the increments reads `*a`, and `return *a - *b` reads
both again. The first component is the result of `compareAt`. -/
def compareLog : Nat → List Int → List Int → Option Int × List (Bool × Nat)
  | i, x :: a, y :: b =>
    if x = y then
      match a.head? with
      | none => (none, [(true, i), (false, i), (true, i + 1)])
      | some x' =>
        if x' = 0 then (some 0, [(true, i), (false, i), (true, i + 1)])
        else
          ((compareLog (i + 1) a b).1,
            (true, i) :: (false, i) :: (true, i + 1) :: (compareLog (i + 1) a b).2)
    else (some (x - y), [(true, i), (false, i), (true, i), (false, i)])
  | i, [], _ => (none, [(true, i)])
  | i, _ :: _, [] => (none, [(true, i), (false, i)])

end StringSort

namespace VoidPointer

/-- The width of `int` on the platform of the demonstration: 4 bytes of 8 bits. -/
def sizeofInt : Nat := 4

/-- The width of `char`: 1 byte. -/
def sizeofChar : Nat := 1

/-- The largest value of a 32-bit `int`. -/
def INT_MAX : Int := 2147483647

/-- The least value of a 32-bit `int`. -/
def INT_MIN : Int := -2147483648

/-- The result of an `int` operation: the mathematical value when it is
representable, and no value when the operation overflows. -/
def checked (v : Int) : Option Int :=
  if INT_MIN ≤ v ∧ v ≤ INT_MAX then some v else none

/-- The operation `a << k` on `int`, for a non-negative `a`. -/
def shl (a : Int) (k : Nat) : Option Int :=
  if 0 ≤ a ∧ k < 32 then checked (a * 2 ^ k) else none

/-- The operation `a + b` on `int`. -/
def add (a b : Int) : Option Int :=
  checked (a + b)

/-- The initialiser of `x`:
`(67 << 0) + (79 << 8) + (82 << 16) + (89 << 24)`, summed from the left. -/
def x : Option Int := do
  let t0 ← shl 67 0
  let t1 ← shl 79 8
  let t2 ← shl 82 16
  let t3 ← shl 89 24
  let s1 ← add t0 t1
  let s2 ← add s1 t2
  add s2 t3

/-- The byte of the two's complement value `v` in lane `k`, lane 0 being the
least significant: `(v >> (8 * k)) mod 256`. -/
def lane (v : Int) (k : Nat) : Nat :=
  ((v >>> (8 * k)) % 256).toNat

/-- The four bytes of the object holding the `int` value `v`, by increasing
address: least significant lane first on a little-endian host, most
significant first on a big-endian one. -/
def objectBytes (littleEndian : Bool) (v : Int) : List Nat :=
  if littleEndian then [lane v 0, lane v 1, lane v 2, lane v 3]
  else [lane v 3, lane v 2, lane v 1, lane v 0]

/-- The read `*((char *)ptr + k)` of byte `k` of the object of `x`. -/
def readByte (littleEndian : Bool) (v : Int) (k : Nat) : Option Nat :=
  (objectBytes littleEndian v)[k]?

/-- The program `main` of `voidPointer.c`: the lines it writes to standard
output, on a host of the given byte order. -/
def main (littleEndian : Bool) : Option (List String) := do
  let v ← x
  let c0 ← readByte littleEndian v 0
  let c1 ← readByte littleEndian v 1
  let c2 ← readByte littleEndian v 2
  let c3 ← readByte littleEndian v 3
  pure [toString sizeofInt, toString sizeofChar, toString v,
    String.mk [Char.ofNat c0, Char.ofNat c1, Char.ofNat c2, Char.ofNat c3]]

end VoidPointer

namespace StringSort

theorem bytes_nil : bytes [] = [0] := rfl

theorem bytes_cons (c : CChar) (a : CStr) : bytes (c :: a) = c.1 :: bytes a := rfl

theorem bytes_cons_zero (c : CChar) (a : CStr) : (bytes (c :: a))[0]? = some c.1 := by
  simp [bytes_cons]

theorem compare_nil_nil : compare [] [] = none := rfl

theorem compare_nil_cons (d : CChar) (b : CStr) :
    compare [] (d :: b) = some (-d.1) := by
  have hd : (0 : Int) ≠ d.1 := Ne.symm d.2.1
  simp [compare, bytes_nil, bytes_cons, compareAt, hd]

theorem compare_cons_nil (c : CChar) (a : CStr) :
    compare (c :: a) [] = some c.1 := by
  have hc : c.1 ≠ 0 := c.2.1
  simp [compare, bytes_nil, bytes_cons, compareAt, hc]

theorem compare_cons_cons (c d : CChar) (a b : CStr) :
    compare (c :: a) (d :: b) =
      if c = d then (if a = [] then some 0 else compare a b)
      else some (c.1 - d.1) := by
  by_cases h : c = d
  · subst h
    cases a with
    | nil => simp [compare, bytes_nil, bytes_cons, compareAt]
    | cons e a =>
      have he : e.1 ≠ 0 := e.2.1
      simp only [compare, bytes_cons]
      rw [compareAt]
      simp [he]
  · have h' : c.1 ≠ d.1 := by
      intro hcd
      exact h (Subtype.ext hcd)
    simp [compare, bytes_cons, compareAt, h, h']

theorem coe_ne (c : CChar) : c.1 ≠ 0 := c.2.1

/-- A character of positive value has that value as its code. -/
theorem code_of_pos (c : CChar) (h : 0 < c.1) : ((code c : Nat) : Int) = c.1 := by
  have h2 := c.2.2.2
  unfold code
  omega

theorem code_lt_code (c d : CChar) (hc : 0 < c.1) (hd : 0 < d.1) :
    code c < code d ↔ c.1 < d.1 := by
  have h1 := code_of_pos c hc
  have h2 := code_of_pos d hd
  omega

/-- Comparing a non-empty string with a string it begins gives 0. -/
theorem compare_of_initial (a : CStr) : ∀ b : CStr, a ≠ [] → a <+: b → compare a b = some 0 := by
  induction a with
  | nil => intro b h; exact absurd rfl h
  | cons c a ih =>
    intro b _ hp
    cases b with
    | nil => simp at hp
    | cons d b =>
      rw [List.cons_prefix_cons] at hp
      obtain ⟨hcd, hab⟩ := hp
      rw [compare_cons_cons, if_pos hcd]
      by_cases ha : a = []
      · rw [if_pos ha]
      · rw [if_neg ha]
        exact ih b ha hab

/-- Comparing a string with itself gives 0 when the string is not empty. -/
theorem compare_self (s : CStr) (h : s ≠ []) : compare s s = some 0 :=
  compare_of_initial s s h (List.prefix_refl s)

/-- The comparator returns a value unless both strings are empty. -/
theorem compare_total (a : CStr) : ∀ b : CStr, ¬ (a = [] ∧ b = []) → ∃ v, compare a b = some v := by
  induction a with
  | nil =>
    intro b h
    cases b with
    | nil => exact absurd ⟨rfl, rfl⟩ h
    | cons d b => exact ⟨_, compare_nil_cons d b⟩
  | cons c a ih =>
    intro b _
    cases b with
    | nil => exact ⟨_, compare_cons_nil c a⟩
    | cons d b =>
      rw [compare_cons_cons]
      by_cases hcd : c = d
      · rw [if_pos hcd]
        by_cases ha : a = []
        · rw [if_pos ha]
          exact ⟨_, rfl⟩
        · rw [if_neg ha]
          exact ih b (fun h => ha h.1)
      · rw [if_neg hcd]
        exact ⟨_, rfl⟩

/-- When `compare a b` is negative, `compare b a` returns a value that is not
negative. -/
theorem compare_neg_swap (a : CStr) :
    ∀ (b : CStr) (v : Int), compare a b = some v → v < 0 → ∃ w, compare b a = some w ∧ 0 ≤ w := by
  induction a with
  | nil =>
    intro b v h hv
    cases b with
    | nil => simp [compare_nil_nil] at h
    | cons d b =>
      rw [compare_nil_cons] at h
      simp only [Option.some.injEq] at h
      exact ⟨d.1, compare_cons_nil d b, by omega⟩
  | cons c a ih =>
    intro b v h hv
    cases b with
    | nil =>
      rw [compare_cons_nil] at h
      simp only [Option.some.injEq] at h
      exact ⟨-c.1, compare_nil_cons c a, by omega⟩
    | cons d b =>
      rw [compare_cons_cons] at h
      by_cases hcd : c = d
      · rw [if_pos hcd] at h
        by_cases ha : a = []
        · rw [if_pos ha] at h
          simp only [Option.some.injEq] at h
          omega
        · rw [if_neg ha] at h
          obtain ⟨w, hw, hpos⟩ := ih b v h hv
          rw [compare_cons_cons, if_pos hcd.symm]
          by_cases hb : b = []
          · rw [if_pos hb]
            exact ⟨0, rfl, le_refl _⟩
          · rw [if_neg hb]
            exact ⟨w, hw, hpos⟩
      · rw [if_neg hcd] at h
        simp only [Option.some.injEq] at h
        refine ⟨d.1 - c.1, ?_, ?_⟩
        · rw [compare_cons_cons, if_neg (fun h' => hcd h'.symm)]
        · omega

/-- One turn of the inner loop, the array split around the two cells compared. -/
theorem innerLoop_step (pre : List CStr) (y x : CStr) (post : List CStr) (c s : Nat) :
    innerLoop (pre.length + 1) ⟨pre ++ y :: x :: post, c, s⟩ =
      match compare x y with
      | some v =>
        if v < 0 then innerLoop pre.length ⟨pre ++ x :: y :: post, c + 1, s + 1⟩
        else innerLoop pre.length ⟨pre ++ y :: x :: post, c + 1, s⟩
      | none => none := by
  rw [innerLoop]
  have h1 : (pre ++ y :: x :: post)[pre.length + 1]? = some x := by
    rw [List.getElem?_append_right (by omega)]
    simp
  have h2 : (pre ++ y :: x :: post)[pre.length]? = some y := by
    rw [List.getElem?_append_right (by omega)]
    simp
  have h3 : ((pre ++ y :: x :: post).set pre.length x).set (pre.length + 1) y
      = pre ++ x :: y :: post := by
    rw [List.set_append_right _ _ (by omega)]
    rw [List.set_append_right _ _ (by simp)]
    simp
  simp only [h1, h2, h3]

/-- The inner loop over cells already in order: every test fails, nothing moves. -/
theorem innerLoop_noop (pre : List CStr) :
    ∀ (x : CStr) (post : List CStr) (c s : Nat), List.Chain' Ordered (pre ++ [x]) →
      innerLoop pre.length ⟨pre ++ x :: post, c, s⟩
        = some ⟨pre ++ x :: post, c + pre.length, s⟩ := by
  induction pre using List.reverseRecOn with
  | nil => intro x post c s _; simp [innerLoop]
  | append_singleton pre y ih =>
    intro x post c s hch
    have hyx : Ordered y x := by
      rw [List.append_assoc] at hch
      exact (List.chain'_pair.1 (hch.right_of_append))
    obtain ⟨w, hw, hpos⟩ := hyx
    have hlen : (pre ++ [y]).length = pre.length + 1 := by simp
    have harr : pre ++ [y] ++ x :: post = pre ++ y :: x :: post := by simp
    rw [hlen, harr, innerLoop_step, hw]
    simp only [not_lt.2 hpos, if_false]
    rw [ih y (x :: post) (c + 1) s hch.left_of_append]
    simp only [Option.some.injEq, SortState.mk.injEq, true_and, and_true]
    omega

/-- The inner loop started on the cell `x` that follows the ordered cells `pre`,
the cells `post` after `x` being those it already passed: when it returns, the
cells `pre ++ x :: post` are permuted and in order and the cells `rest` are
untouched; it fails to return only when `x` and a cell of `pre` are both empty. -/
theorem innerLoop_insert (rest pre : List CStr) :
    ∀ (x : CStr) (post : List CStr) (c s : Nat),
      List.Chain' Ordered (pre ++ post) → List.Chain' Ordered (x :: post) →
      (∀ r, innerLoop pre.length ⟨pre ++ x :: post ++ rest, c, s⟩ = some r →
        ∃ srt, r.a = srt ++ rest ∧ srt.Perm (pre ++ x :: post) ∧ List.Chain' Ordered srt) ∧
      (innerLoop pre.length ⟨pre ++ x :: post ++ rest, c, s⟩ = none → x = [] ∧ [] ∈ pre) := by
  induction pre using List.reverseRecOn with
  | nil =>
    intro x post c s _ hx
    constructor
    · intro r hr
      simp only [List.length_nil, innerLoop, Option.some.injEq] at hr
      subst hr
      exact ⟨x :: post, by simp, by simp, hx⟩
    · intro h
      simp [innerLoop] at h
  | append_singleton pre y ih =>
    intro x post c s hpp hx
    have hlen : (pre ++ [y]).length = pre.length + 1 := by simp
    have harr : pre ++ [y] ++ x :: post ++ rest = pre ++ y :: x :: (post ++ rest) := by simp
    have hpp' : List.Chain' Ordered (pre ++ y :: post) := by simpa using hpp
    rw [hlen, harr, innerLoop_step]
    cases hc : compare x y with
    | none =>
      have hboth : x = [] ∧ y = [] := by
        by_contra hne
        obtain ⟨v, hv⟩ := compare_total x y hne
        rw [hv] at hc
        exact Option.noConfusion hc
      constructor
      · intro r hr
        exact Option.noConfusion hr
      · intro _
        exact ⟨hboth.1, by simp [hboth.2]⟩
    | some v =>
      by_cases hv : v < 0
      · simp only [if_pos hv]
        obtain ⟨w, hw, hwpos⟩ := compare_neg_swap x y v hc hv
        have hxy : List.Chain' Ordered (x :: y :: post) :=
          List.Chain'.cons ⟨w, hw, hwpos⟩ hpp'.right_of_append
        have key := ih x (y :: post) (c + 1) (s + 1) hpp' hxy
        have harr2 : pre ++ x :: y :: (post ++ rest) = pre ++ x :: (y :: post) ++ rest := by simp
        rw [harr2]
        constructor
        · intro r hr
          obtain ⟨srt, h1, h2, h3⟩ := key.1 r hr
          refine ⟨srt, h1, h2.trans ?_, h3⟩
          rw [List.append_assoc]
          apply List.Perm.append_left
          simpa using List.Perm.swap y x post
        · intro hn
          obtain ⟨h1, h2⟩ := key.2 hn
          exact ⟨h1, by simp [h2]⟩
      · simp only [if_neg hv]
        have hyx : Ordered y x := ⟨v, hc, not_lt.1 hv⟩
        have hall : List.Chain' Ordered (pre ++ [y] ++ [x]) := by
          rw [List.append_assoc]
          exact List.chain'_append_cons_cons.2 ⟨by simpa using hpp.left_of_append, hyx, List.chain'_singleton x⟩
        have hwhole : List.Chain' Ordered (pre ++ y :: x :: post) := by
          exact List.chain'_append_cons_cons.2 ⟨by simpa using hpp.left_of_append, hyx, hx⟩
        have hno := innerLoop_noop pre y (x :: (post ++ rest)) (c + 1) s hall.left_of_append
        rw [hno]
        constructor
        · intro r hr
          simp only [Option.some.injEq] at hr
          subst hr
          exact ⟨pre ++ y :: x :: post, by simp, by simp, hwhole⟩
        · intro hn
          exact Option.noConfusion hn

theorem sortStrings_zero (a : List CStr) : sortStrings a ((0 : Nat) : Int) = some ⟨a, 0, 0⟩ := by
  simp [sortStrings, outerLoop]

/-- The outer loop run for `k + 1` turns is the loop run for `k` turns followed
by the inner loop started at `k`. -/
theorem sortStrings_succ (a : List CStr) (k : Nat) :
    sortStrings a ((k + 1 : Nat) : Int) = (sortStrings a ((k : Nat) : Int)).bind (innerLoop k) := by
  simp only [sortStrings, outerLoop, Int.toNat_ofNat, List.range_succ, List.foldlM_append]
  cases List.foldlM (fun s n => innerLoop n s) (⟨a, 0, 0⟩ : SortState) (List.range k) with
  | none => rfl
  | some r => simp

/-- The invariant of the outer loop: after `k` turns the first `k` cells are a
permutation of the first `k` cells of the input and are in order, and the
other cells are untouched; the loop fails to return only when two cells hold
the empty string. -/
theorem sortStrings_inv (a : List CStr) :
    ∀ k : Nat, k ≤ a.length →
      (∀ r, sortStrings a ((k : Nat) : Int) = some r →
        ∃ srt, r.a = srt ++ a.drop k ∧ srt.Perm (a.take k) ∧ List.Chain' Ordered srt) ∧
      (sortStrings a ((k : Nat) : Int) = none → 2 ≤ a.count []) := by
  intro k
  induction k with
  | zero =>
    intro _
    rw [sortStrings_zero]
    constructor
    · intro r hr
      simp only [Option.some.injEq] at hr
      subst hr
      exact ⟨[], by simp, by simp, List.chain'_nil⟩
    · intro h
      exact Option.noConfusion h
  | succ k ih =>
    intro hk
    obtain ⟨ih1, ih2⟩ := ih (by omega)
    rw [sortStrings_succ]
    cases hs : sortStrings a ((k : Nat) : Int) with
    | none =>
      constructor
      · intro r hr
        exact Option.noConfusion hr
      · intro _
        exact ih2 hs
    | some r =>
      obtain ⟨srt, h1, h2, h3⟩ := ih1 r hs
      have hlen : srt.length = k := by
        rw [h2.length_eq, List.length_take]
        omega
      have hdrop : a.drop k = a[k] :: a.drop (k + 1) := List.drop_eq_getElem_cons (by omega)
      have hr : r = ⟨srt ++ a[k] :: [] ++ a.drop (k + 1), r.comparisons, r.swaps⟩ := by
        cases r
        simp only [SortState.mk.injEq, and_true] at h1 ⊢
        rw [h1, hdrop]
        simp
      have htake : a.take (k + 1) = a.take k ++ [a[k]] := by
        rw [List.take_succ, List.getElem?_eq_getElem (by omega)]
        rfl
      have key := innerLoop_insert (a.drop (k + 1)) srt a[k] [] r.comparisons r.swaps
        (by simpa using h3) (List.chain'_singleton _)
      rw [hlen, ← hr] at key
      simp only [Option.some_bind]
      constructor
      · intro r' hr'
        obtain ⟨srt', g1, g2, g3⟩ := key.1 r' hr'
        refine ⟨srt', g1, g2.trans ?_, g3⟩
        rw [htake]
        exact List.Perm.append_right _ h2
      · intro hn
        obtain ⟨g1, g2⟩ := key.2 hn
        have hmem : [] ∈ a.take k := h2.mem_iff.1 g2
        have hsplit : a = a.take k ++ a[k] :: a.drop (k + 1) := by
          rw [← hdrop, List.take_append_drop]
        rw [hsplit, List.count_append, List.count_cons, g1]
        have : 0 < (a.take k).count [] := List.count_pos_iff.2 hmem
        simp only [beq_self_eq_true, if_true]
        omega

/-- With at most one empty string in the array, `sortStrings` returns, and the
array it leaves is a permutation of the input whose neighbours are in order. -/
theorem sortStrings_returns (a : List CStr) (h : a.count [] ≤ 1) :
    ∃ r, sortStrings a (a.length : Int) = some r ∧ r.a.Perm a ∧ List.Chain' Ordered r.a := by
  obtain ⟨h1, h2⟩ := sortStrings_inv a a.length (le_refl _)
  cases hs : sortStrings a (a.length : Int) with
  | none =>
    have := h2 hs
    omega
  | some r =>
    obtain ⟨srt, g1, g2, g3⟩ := h1 r hs
    simp only [List.drop_length, List.append_nil, List.take_length] at g1 g2
    exact ⟨r, rfl, g1 ▸ g2, g1 ▸ g3⟩

/-- On an array whose neighbours are in order the sort swaps nothing. -/
theorem sortStrings_ordered (a : List CStr) (h : List.Chain' Ordered a) :
    ∀ k : Nat, k ≤ a.length → ∃ c, sortStrings a ((k : Nat) : Int) = some ⟨a, c, 0⟩ := by
  intro k
  induction k with
  | zero => intro _; exact ⟨0, sortStrings_zero a⟩
  | succ k ih =>
    intro hk
    obtain ⟨c, hc⟩ := ih (by omega)
    have hsplit : a = a.take k ++ a[k] :: a.drop (k + 1) := by
      rw [← List.drop_eq_getElem_cons (by omega), List.take_append_drop]
    have hch : List.Chain' Ordered (a.take k ++ [a[k]]) := by
      have : a.take k ++ [a[k]] = a.take (k + 1) := by
        rw [List.take_succ, List.getElem?_eq_getElem (by omega)]
        rfl
      rw [this]
      exact h.take (k + 1)
    have hno := innerLoop_noop (a.take k) a[k] (a.drop (k + 1)) c 0 hch
    rw [← hsplit, List.length_take, Nat.min_eq_left (by omega)] at hno
    rw [sortStrings_succ, hc]
    exact ⟨_, hno⟩

/-- When `compare b a` is not negative, `compare a b` returns a value, and that
value is positive only if `b` is a proper initial segment of `a`. -/
theorem compare_nonneg_swap (b : CStr) :
    ∀ (a : CStr) (w : Int), compare b a = some w → 0 ≤ w →
      ∃ v, compare a b = some v ∧ (v ≤ 0 ∨ (b <+: a ∧ b ≠ a)) := by
  induction b with
  | nil =>
    intro a w h hw
    cases a with
    | nil => simp [compare_nil_nil] at h
    | cons d a =>
      rw [compare_nil_cons] at h
      simp only [Option.some.injEq] at h
      exact ⟨d.1, compare_cons_nil d a, Or.inl (by omega)⟩
  | cons c b ih =>
    intro a w h hw
    cases a with
    | nil =>
      rw [compare_cons_nil] at h
      simp only [Option.some.injEq] at h
      exact ⟨-c.1, compare_nil_cons c b, Or.inl (by omega)⟩
    | cons d a =>
      rw [compare_cons_cons] at h
      rw [compare_cons_cons]
      by_cases hcd : c = d
      · subst hcd
        simp only [if_true] at h ⊢
        by_cases ha : a = []
        · rw [if_pos ha]
          exact ⟨0, rfl, Or.inl (le_refl _)⟩
        · rw [if_neg ha]
          by_cases hb : b = []
          · subst hb
            obtain ⟨v, hv⟩ := compare_total a [] (fun h' => ha h'.1)
            refine ⟨v, hv, Or.inr ⟨?_, ?_⟩⟩
            · simp
            · intro h'
              simp only [List.cons.injEq, true_and] at h'
              exact ha h'.symm
          · rw [if_neg hb] at h
            obtain ⟨v, hv, hor⟩ := ih a w h hw
            refine ⟨v, hv, ?_⟩
            rcases hor with hle | ⟨hp, hne⟩
            · exact Or.inl hle
            · refine Or.inr ⟨?_, ?_⟩
              · rw [List.cons_prefix_cons]
                exact ⟨rfl, hp⟩
              · intro h'
                simp only [List.cons.injEq, true_and] at h'
                exact hne h'
      · rw [if_neg hcd] at h
        rw [if_neg (fun h' => hcd h'.symm)]
        simp only [Option.some.injEq] at h
        exact ⟨_, rfl, Or.inl (by omega)⟩

/-- Comparing a string of characters of positive value with a proper initial
segment of it gives a positive value. -/
theorem compare_pos_of_extends (b : CStr) :
    ∀ a : CStr, (∀ c ∈ a, 0 < c.1) → b <+: a → b ≠ a → ∃ v, compare a b = some v ∧ 0 < v := by
  induction b with
  | nil =>
    intro a hpos _ hne
    cases a with
    | nil => exact absurd rfl hne
    | cons c a => exact ⟨_, compare_cons_nil c a, hpos c (List.mem_cons_self c a)⟩
  | cons d b ih =>
    intro a hpos hp hne
    cases a with
    | nil => simp at hp
    | cons c a =>
      rw [List.cons_prefix_cons] at hp
      obtain ⟨hdc, hba⟩ := hp
      subst hdc
      have hne' : b ≠ a := fun h' => hne (by rw [h'])
      have ha : a ≠ [] := by
        intro ha
        subst ha
        exact hne' (List.prefix_nil.1 hba)
      rw [compare_cons_cons, if_pos rfl, if_neg ha]
      exact ih a (fun c' hc' => hpos c' (List.mem_cons_of_mem _ hc')) hba hne'

/-! ## Properties of `stringSort.c` -/

/-- C1: `sortStrings` on the array of two empty strings, with size 2, leaves no
permutation of its input: its one call of `compare` receives two empty
strings and reads past their terminators, so the sort does not return. -/
theorem sortStrings_two_empty : sortStrings [[], []] 2 = none := by
  decide

/-- C2, as stated, fails: on `["abc", "ab"]` the sort returns the array
unchanged, and `compare("abc", "ab")` is 99, which is positive; on
`["", ""]` the sort does not return at all. -/
theorem sorted_pair_out_of_order :
    (∃ r, sortStrings [lit "abc", lit "ab"] 2 = some r ∧
      r.a[0]? = some (lit "abc") ∧ r.a[1]? = some (lit "ab") ∧
      compare (lit "abc") (lit "ab") = some 99 ∧ ¬ ((99 : Int) ≤ 0)) ∧
    sortStrings [[], []] 2 = none := by
  decide

/-- C2, amended: for every array of strings of which at most one is empty,
`sortStrings(a, size)` with `size` the length of the array returns, and every
adjacent pair `u = a[i]`, `v = a[i+1]` of the array it leaves satisfies
`compare(u, v) <= 0`, unless `v` is a proper initial segment of `u`. -/
theorem sortStrings_neighbours (a : List CStr) (h : a.count [] ≤ 1) :
    ∃ r, sortStrings a (a.length : Int) = some r ∧
      ∀ (i : Nat) (u v : CStr), r.a[i]? = some u → r.a[i + 1]? = some v →
        ∃ w, compare u v = some w ∧ (w ≤ 0 ∨ (v <+: u ∧ v ≠ u)) := by
  obtain ⟨r, hr, _, hch⟩ := sortStrings_returns a h
  refine ⟨r, hr, ?_⟩
  intro i u v hu hv
  have hi : i + 1 < r.a.length := by
    by_contra hlt
    rw [List.getElem?_eq_none (by omega)] at hv
    exact Option.noConfusion hv
  have hu' : r.a[i] = u := by
    rw [List.getElem?_eq_getElem (by omega)] at hu
    exact Option.some.inj hu
  have hv' : r.a[i + 1] = v := by
    rw [List.getElem?_eq_getElem hi] at hv
    exact Option.some.inj hv
  have hsplit : r.a = r.a.take i ++ u :: v :: r.a.drop (i + 2) := by
    rw [← hu', ← hv']
    have h2 : r.a.drop (i + 1) = r.a[i + 1] :: r.a.drop (i + 2) := List.drop_eq_getElem_cons hi
    have h1 : r.a.drop i = r.a[i] :: r.a.drop (i + 1) := List.drop_eq_getElem_cons (by omega)
    rw [← h2, ← h1, List.take_append_drop]
  rw [hsplit] at hch
  obtain ⟨x, hx, hx0⟩ := (List.chain'_append_cons_cons.1 hch).2.1
  exact compare_nonneg_swap v u x hx hx0

/-- The amended C2 on the array of `main`, which holds no empty string. -/
theorem sortStrings_neighbours_witness :
    names.count [] ≤ 1 ∧
    ∃ r, sortStrings names (names.length : Int) = some r ∧
      ∀ (i : Nat) (u v : CStr), r.a[i]? = some u → r.a[i + 1]? = some v →
        ∃ w, compare u v = some w ∧ (w ≤ 0 ∨ (v <+: u ∧ v ≠ u)) :=
  ⟨by decide, sortStrings_neighbours names (by decide)⟩

/-- C3: `sortStrings` on `["Cory", "Ross", "Gordon", "Deborah"]` with size 4
leaves exactly `["Cory", "Deborah", "Gordon", "Ross"]` (after 6 comparisons
and 3 swaps), and `main` prints these as name 0 to name 3. -/
theorem main_sorts_names :
    sortStrings [lit "Cory", lit "Ross", lit "Gordon", lit "Deborah"] 4
      = some ⟨[lit "Cory", lit "Deborah", lit "Gordon", lit "Ross"], 6, 3⟩ ∧
    main = some ["name 0: Cory", "name 1: Deborah", "name 2: Gordon", "name 3: Ross"] := by
  decide

/-- C4, as stated, fails on a host where `char` is signed: `"a\xc8"` and `"a"`
first differ at position 1, where the codes are 200 and 0, yet
`compare("a\xc8", "a")` is -56, not 200, and it is negative although
`"a\xc8"` comes after `"a"` in lexicographic order. -/
theorem compare_signed_char_sign :
    ¬ (ofCodes true [97, 200] ≠ [] ∧ ofCodes true [97, 200] <+: ofCodes true [97]) ∧
    ¬ (ofCodes true [97, 200] = [] ∧ ofCodes true [97] = []) ∧
    (codes (ofCodes true [97, 200]))[0]? = (codes (ofCodes true [97]))[0]? ∧
    (codes (ofCodes true [97, 200]))[1]? = some 200 ∧
    (codes (ofCodes true [97]))[1]? = some 0 ∧
    compare (ofCodes true [97, 200]) (ofCodes true [97]) = some (-56) ∧
    (-56 : Int) ≠ ((200 : Nat) : Int) - ((0 : Nat) : Int) ∧ (-56 : Int) < 0 ∧
    ¬ List.Lex (· < ·) ((ofCodes true [97, 200]).map code) ((ofCodes true [97]).map code) ∧
    List.Lex (· < ·) ((ofCodes true [97]).map code) ((ofCodes true [97, 200]).map code) := by
  decide

theorem lex_cons_of_ne {x y : Nat} {l₁ l₂ : List Nat} (h : x ≠ y) :
    List.Lex (· < ·) (x :: l₁) (y :: l₂) ↔ x < y := by
  constructor
  · intro hl
    cases hl with
    | cons _ => exact absurd rfl h
    | rel hlt => exact hlt
  · intro hlt
    exact List.Lex.rel hlt

theorem codes_nil : codes [] = [0] := rfl

theorem codes_cons (c : CChar) (a : CStr) : codes (c :: a) = code c :: codes a := rfl

/-- C4, amended: for strings `a` and `b` whose characters all have a positive
`char` value (the 7-bit characters, and every character where `char` is
unsigned), such that `a` is not a non-empty initial segment of `b` and the
two are not both empty, the terminated sequences of codes of `a` and `b`
differ at a first position `i`, holding the codes `x` and `y` there, and
`compare(a, b)` returns `x - y`; this value is negative exactly when `a`
comes before `b` in lexicographic order and positive exactly when `a` comes
after `b`. -/
theorem compare_first_difference (a : CStr) :
    ∀ b : CStr, (∀ c ∈ a, 0 < c.1) → (∀ c ∈ b, 0 < c.1) →
      ¬ (a ≠ [] ∧ a <+: b) → ¬ (a = [] ∧ b = []) →
      ∃ (i : Nat) (x y : Nat),
        (∀ j, j < i → (codes a)[j]? = (codes b)[j]?) ∧
        (codes a)[i]? = some x ∧ (codes b)[i]? = some y ∧ x ≠ y ∧
        compare a b = some ((x : Int) - (y : Int)) ∧
        ((x : Int) - (y : Int) < 0 ↔ List.Lex (· < ·) (a.map code) (b.map code)) ∧
        (0 < (x : Int) - (y : Int) ↔ List.Lex (· < ·) (b.map code) (a.map code)) := by
  induction a with
  | nil =>
    intro b _ hb _ h2
    cases b with
    | nil => exact absurd ⟨rfl, rfl⟩ h2
    | cons d b =>
      have hd := hb d (List.mem_cons_self d b)
      have hcode := code_of_pos d hd
      refine ⟨0, 0, code d, ?_, by simp [codes_nil], by simp [codes_cons], by omega, ?_, ?_, ?_⟩
      · intro j hj
        omega
      · rw [compare_nil_cons]
        congr 1
        omega
      · constructor
        · intro _
          exact List.Lex.nil
        · intro _
          omega
      · constructor
        · intro hpos
          omega
        · intro hlex
          cases hlex
  | cons c a ih =>
    intro b ha hb h1 h2
    have hc := ha c (List.mem_cons_self c a)
    have hcodec := code_of_pos c hc
    cases b with
    | nil =>
      refine ⟨0, code c, 0, ?_, by simp [codes_cons], by simp [codes_nil], by omega, ?_, ?_, ?_⟩
      · intro j hj
        omega
      · rw [compare_cons_nil]
        congr 1
        omega
      · constructor
        · intro hneg
          omega
        · intro hlex
          cases hlex
      · constructor
        · intro _
          exact List.Lex.nil
        · intro _
          omega
    | cons d b =>
      have hd := hb d (List.mem_cons_self d b)
      have hcoded := code_of_pos d hd
      by_cases hcd : c = d
      · subst hcd
        have hnp : ¬ a <+: b := by
          intro hp
          apply h1
          exact ⟨List.cons_ne_nil c a, by rw [List.cons_prefix_cons]; exact ⟨rfl, hp⟩⟩
        have hane : a ≠ [] := by
          intro hnil
          apply hnp
          rw [hnil]
          exact List.nil_prefix
        obtain ⟨i, x, y, g1, g2, g3, g4, g5, g6, g7⟩ :=
          ih b (fun c' hc' => ha c' (List.mem_cons_of_mem _ hc'))
            (fun c' hc' => hb c' (List.mem_cons_of_mem _ hc'))
            (fun h' => hnp h'.2) (fun h' => hane h'.1)
        refine ⟨i + 1, x, y, ?_, ?_, ?_, g4, ?_, ?_, ?_⟩
        · intro j hj
          cases j with
          | zero => simp [codes_cons]
          | succ j =>
            simp only [codes_cons, List.getElem?_cons_succ]
            exact g1 j (by omega)
        · simpa [codes_cons] using g2
        · simpa [codes_cons] using g3
        · rw [compare_cons_cons, if_pos rfl, if_neg hane]
          exact g5
        · rw [g6, List.map_cons, List.map_cons]
          exact List.Lex.cons_iff.symm
        · rw [g7, List.map_cons, List.map_cons]
          exact List.Lex.cons_iff.symm
      · have hne : c.1 ≠ d.1 := fun h' => hcd (Subtype.ext h')
        have hcne : code c ≠ code d := by omega
        refine ⟨0, code c, code d, ?_, by simp [codes_cons], by simp [codes_cons], hcne,
          ?_, ?_, ?_⟩
        · intro j hj
          omega
        · rw [compare_cons_cons, if_neg hcd]
          congr 1
          omega
        · rw [List.map_cons, List.map_cons, lex_cons_of_ne hcne]
          omega
        · rw [List.map_cons, List.map_cons, lex_cons_of_ne (Ne.symm hcne)]
          omega

/-- The amended C4 on `"Ross"` and `"Cory"`, which differ at their first character. -/
theorem compare_first_difference_witness :
    (∀ c ∈ lit "Ross", 0 < c.1) ∧ (∀ c ∈ lit "Cory", 0 < c.1) ∧
    ¬ (lit "Ross" ≠ [] ∧ lit "Ross" <+: lit "Cory") ∧ ¬ (lit "Ross" = [] ∧ lit "Cory" = []) ∧
    ∃ (i : Nat) (x y : Nat),
      (∀ j, j < i → (codes (lit "Ross"))[j]? = (codes (lit "Cory"))[j]?) ∧
      (codes (lit "Ross"))[i]? = some x ∧ (codes (lit "Cory"))[i]? = some y ∧ x ≠ y ∧
      compare (lit "Ross") (lit "Cory") = some ((x : Int) - (y : Int)) ∧
      ((x : Int) - (y : Int) < 0 ↔
        List.Lex (· < ·) ((lit "Ross").map code) ((lit "Cory").map code)) ∧
      (0 < (x : Int) - (y : Int) ↔
        List.Lex (· < ·) ((lit "Cory").map code) ((lit "Ross").map code)) :=
  ⟨by decide, by decide, by decide, by decide,
    compare_first_difference (lit "Ross") (lit "Cory") (by decide) (by decide) (by decide)
      (by decide)⟩

/-- C5, as stated, fails: the empty string is a proper initial segment of
`"x"`, shorter than it, and `compare("", "x")` is -120, not 0. -/
theorem compare_empty_before_x :
    ([] : CStr) <+: lit "x" ∧ ([] : CStr).length < (lit "x").length ∧
    compare [] (lit "x") = some (-120) ∧ compare [] (lit "x") ≠ some 0 := by
  decide

/-- C5, amended: for every non-empty string `a` and every string `b` longer
than `a` that agrees with `a` on every position where `a` has content,
`compare(a, b)` returns 0. -/
theorem compare_proper_initial (a b : CStr) (ha : a ≠ []) (hp : a <+: b)
    (_hl : a.length < b.length) : compare a b = some 0 :=
  compare_of_initial a b ha hp

/-- The amended C5 on the documented instance `compare("ab", "abc")`. -/
theorem compare_proper_initial_witness :
    lit "ab" ≠ [] ∧ lit "ab" <+: lit "abc" ∧ (lit "ab").length < (lit "abc").length ∧
    compare (lit "ab") (lit "abc") = some 0 :=
  ⟨by decide, by decide, by decide,
    compare_proper_initial (lit "ab") (lit "abc") (by decide) (by decide) (by decide)⟩

/-- C6: on two empty strings `compare` does not return 0: the object of the
empty string is its terminator alone, the loop steps past it, and the read
`*a` that follows is outside the object. -/
theorem compare_empty_empty :
    bytes [] = [0] ∧ (bytes []).tail.head? = none ∧ compare [] [] = none ∧
    compare [] [] ≠ some 0 := by
  decide

/-- C7: sorting the array left by `sortStrings` a second time leaves it
unchanged: whenever `sortStrings(xs, size)`, with `size` the length of `xs`,
leaves the array `r.a`, the same call on `r.a` returns with the same array,
having swapped nothing. -/
theorem sortStrings_idempotent (xs : List CStr) (r : SortState)
    (h : sortStrings xs (xs.length : Int) = some r) :
    ∃ c, sortStrings r.a (xs.length : Int) = some ⟨r.a, c, 0⟩ := by
  obtain ⟨srt, h1, h2, h3⟩ := (sortStrings_inv xs xs.length (le_refl _)).1 r h
  simp only [List.drop_length, List.append_nil, List.take_length] at h1 h2
  rw [← h1] at h2 h3
  have hlen : r.a.length = xs.length := h2.length_eq
  rw [← hlen]
  exact sortStrings_ordered r.a h3 r.a.length (le_refl _)

/-- C7 on the array of `main`: the sorted names, sorted again, stay as they are. -/
theorem sortStrings_idempotent_witness :
    sortStrings names (names.length : Int)
      = some ⟨[lit "Cory", lit "Deborah", lit "Gordon", lit "Ross"], 6, 3⟩ ∧
    ∃ c, sortStrings [lit "Cory", lit "Deborah", lit "Gordon", lit "Ross"] (names.length : Int)
      = some ⟨[lit "Cory", lit "Deborah", lit "Gordon", lit "Ross"], c, 0⟩ :=
  ⟨by decide,
    sortStrings_idempotent names ⟨[lit "Cory", lit "Deborah", lit "Gordon", lit "Ross"], 6, 3⟩
      (by decide)⟩

/-- C8: for every array `a` and every `size <= 1`, `sortStrings(a, size)`
returns having made no comparison and no swap, and leaves the array as it
was. -/
theorem sortStrings_small (a : List CStr) (size : Int) (h : size ≤ 1) :
    sortStrings a size = some ⟨a, 0, 0⟩ := by
  have hn : size.toNat = 0 ∨ size.toNat = 1 := by omega
  rcases hn with h0 | h1
  · simp [sortStrings, outerLoop, h0]
  · simp [sortStrings, outerLoop, h1, List.range_succ, innerLoop]

/-- C8 on a two-cell array out of order, with size 1: nothing is compared or moved. -/
theorem sortStrings_small_witness :
    (1 : Int) ≤ 1 ∧ sortStrings [lit "Ross", lit "Cory"] 1 = some ⟨[lit "Ross", lit "Cory"], 0, 0⟩ :=
  ⟨by decide, sortStrings_small [lit "Ross", lit "Cory"] 1 (by decide)⟩

/-! ## Further lemmas on `compare` and on chains -/

/-- Two neighbours of a chain are related. -/
theorem chain_getElem {R : CStr → CStr → Prop} (l : List CStr) (hch : List.Chain' R l)
    (i : Nat) (u v : CStr) (hu : l[i]? = some u) (hv : l[i + 1]? = some v) : R u v := by
  have hi : i + 1 < l.length := by
    by_contra hlt
    rw [List.getElem?_eq_none (by omega)] at hv
    exact Option.noConfusion hv
  have hu' : l[i] = u := by
    rw [List.getElem?_eq_getElem (by omega)] at hu
    exact Option.some.inj hu
  have hv' : l[i + 1] = v := by
    rw [List.getElem?_eq_getElem hi] at hv
    exact Option.some.inj hv
  have hsplit : l = l.take i ++ u :: v :: l.drop (i + 2) := by
    rw [← hu', ← hv']
    have h2 : l.drop (i + 1) = l[i + 1] :: l.drop (i + 2) := List.drop_eq_getElem_cons hi
    have h1 : l.drop i = l[i] :: l.drop (i + 1) := List.drop_eq_getElem_cons (by omega)
    rw [← h2, ← h1, List.take_append_drop]
  rw [hsplit] at hch
  exact (List.chain'_append_cons_cons.1 hch).2.1

/-- A list whose neighbours are all related is a chain. -/
theorem chain_of_getElem {R : CStr → CStr → Prop} (l : List CStr) :
    (∀ (i : Nat) (u v : CStr), l[i]? = some u → l[i + 1]? = some v → R u v) →
      List.Chain' R l := by
  induction l with
  | nil => intro _; exact List.chain'_nil
  | cons x l ih =>
    intro h
    cases l with
    | nil => exact List.chain'_singleton x
    | cons y l =>
      refine List.Chain'.cons (h 0 x y (by simp) (by simp)) (ih ?_)
      intro i u v hu hv
      exact h (i + 1) u v (by simpa using hu) (by simpa using hv)

/-- The result 0 is returned only when `a` is not empty and `b` begins with `a`. -/
theorem compare_zero_initial (a : CStr) :
    ∀ b : CStr, compare a b = some 0 → a ≠ [] ∧ a <+: b := by
  induction a with
  | nil =>
    intro b h
    cases b with
    | nil => simp [compare_nil_nil] at h
    | cons d b =>
      rw [compare_nil_cons] at h
      have := coe_ne d
      simp only [Option.some.injEq] at h
      omega
  | cons c a ih =>
    intro b h
    refine ⟨List.cons_ne_nil c a, ?_⟩
    cases b with
    | nil =>
      rw [compare_cons_nil] at h
      have := coe_ne c
      simp only [Option.some.injEq] at h
      omega
    | cons d b =>
      rw [compare_cons_cons] at h
      by_cases hcd : c = d
      · subst hcd
        rw [List.cons_prefix_cons]
        refine ⟨rfl, ?_⟩
        by_cases ha : a = []
        · rw [ha]
          exact List.nil_prefix
        · rw [if_pos rfl, if_neg ha] at h
          exact (ih b h).2
      · rw [if_neg hcd] at h
        simp only [Option.some.injEq] at h
        have hne : c.1 ≠ d.1 := fun h' => hcd (Subtype.ext h')
        omega

/-- For strings of characters of positive value, a negative result places the
codes of `a` before the codes of `b` in lexicographic order. -/
theorem compare_neg_lex (a : CStr) :
    ∀ (b : CStr) (v : Int), (∀ c ∈ a, 0 < c.1) → (∀ c ∈ b, 0 < c.1) →
      compare a b = some v → v < 0 → List.Lex (· < ·) (a.map code) (b.map code) := by
  induction a with
  | nil =>
    intro b v _ _ h _
    cases b with
    | nil => simp [compare_nil_nil] at h
    | cons d b => exact List.Lex.nil
  | cons c a ih =>
    intro b v ha hb h hv
    have hc := ha c (List.mem_cons_self c a)
    cases b with
    | nil =>
      rw [compare_cons_nil] at h
      simp only [Option.some.injEq] at h
      omega
    | cons d b =>
      have hd := hb d (List.mem_cons_self d b)
      rw [compare_cons_cons] at h
      by_cases hcd : c = d
      · subst hcd
        rw [if_pos rfl] at h
        by_cases hnil : a = []
        · rw [if_pos hnil] at h
          simp only [Option.some.injEq] at h
          omega
        · rw [if_neg hnil] at h
          exact List.Lex.cons (ih b v (fun c' hc' => ha c' (List.mem_cons_of_mem _ hc'))
            (fun c' hc' => hb c' (List.mem_cons_of_mem _ hc')) h hv)
      · rw [if_neg hcd] at h
        simp only [Option.some.injEq] at h
        apply List.Lex.rel
        rw [code_lt_code c d hc hd]
        omega

/-- When the characters of `v` have a positive value, a pair in order as the
specification tests it, `compare(u, v) <= 0`, is in order as the sort tests
it, `compare(v, u) >= 0`. -/
theorem compare_nonpos_ordered (u v : CStr) (w : Int) (hv : ∀ c ∈ v, 0 < c.1)
    (h : compare u v = some w) (hw : w ≤ 0) : Ordered u v := by
  by_cases hneg : w < 0
  · exact compare_neg_swap u v w h hneg
  · have hw0 : w = 0 := by omega
    subst hw0
    obtain ⟨hne, hp⟩ := compare_zero_initial u v h
    by_cases huv : u = v
    · subst huv
      exact ⟨0, compare_self u hne, le_refl _⟩
    · obtain ⟨w', hw', hpos⟩ := compare_pos_of_extends u v hv hp huv
      exact ⟨w', hw', le_of_lt hpos⟩

/-! ## The sort of the source and the sort of the specification -/

/-- One turn of the backward walk of the specification, the array split around
the two cells compared. -/
theorem specWalk_step (pre : List CStr) (y x : CStr) (post : List CStr) :
    specWalk (pre.length + 1) (pre ++ y :: x :: post) =
      match compare x y with
      | some v =>
        if v < 0 then specWalk pre.length (pre ++ x :: y :: post)
        else some (pre ++ y :: x :: post)
      | none => none := by
  rw [specWalk]
  have h1 : (pre ++ y :: x :: post)[pre.length + 1]? = some x := by
    rw [List.getElem?_append_right (by omega)]
    simp
  have h2 : (pre ++ y :: x :: post)[pre.length]? = some y := by
    rw [List.getElem?_append_right (by omega)]
    simp
  have h3 : ((pre ++ y :: x :: post).set pre.length x).set (pre.length + 1) y
      = pre ++ x :: y :: post := by
    rw [List.set_append_right _ _ (by omega)]
    rw [List.set_append_right _ _ (by simp)]
    simp
  simp only [h1, h2, h3]

/-- Started after cells in order, the inner loop of `sortStrings` and the
backward walk of the specification leave the same array, or both fail. -/
theorem innerLoop_eq_specWalk (pre : List CStr) :
    List.Chain' Ordered pre → ∀ (x : CStr) (rest : List CStr) (c s : Nat),
      (innerLoop pre.length ⟨pre ++ x :: rest, c, s⟩).map (fun r => r.a)
        = specWalk pre.length (pre ++ x :: rest) := by
  induction pre using List.reverseRecOn with
  | nil =>
    intro _ x rest c s
    simp [innerLoop, specWalk]
  | append_singleton pre y ih =>
    intro hch x rest c s
    have hlen : (pre ++ [y]).length = pre.length + 1 := by simp
    have harr : pre ++ [y] ++ x :: rest = pre ++ y :: x :: rest := by simp
    rw [hlen, harr, innerLoop_step, specWalk_step]
    cases hc : compare x y with
    | none => rfl
    | some v =>
      by_cases hv : v < 0
      · simp only [if_pos hv]
        exact ih hch.left_of_append x (y :: rest) (c + 1) (s + 1)
      · simp only [if_neg hv]
        rw [innerLoop_noop pre y (x :: rest) (c + 1) s hch]
        rfl

theorem specSort_zero (a : List CStr) : specSort a ((0 : Nat) : Int) = some a := by
  simp [specSort]

theorem specSort_succ (a : List CStr) (k : Nat) :
    specSort a ((k + 1 : Nat) : Int) = (specSort a ((k : Nat) : Int)).bind (specWalk k) := by
  simp only [specSort, Int.toNat_ofNat, List.range_succ, List.foldlM_append]
  cases List.foldlM (fun s n => specWalk n s) a (List.range k) with
  | none => rfl
  | some r => simp

/-- After any number of turns of the outer loop, `sortStrings` and the sort of
the specification hold the same array, or both have failed. -/
theorem sortStrings_eq_specSort (a : List CStr) :
    ∀ k : Nat, k ≤ a.length →
      (sortStrings a ((k : Nat) : Int)).map (fun r => r.a) = specSort a ((k : Nat) : Int) := by
  intro k
  induction k with
  | zero =>
    intro _
    rw [sortStrings_zero, specSort_zero]
    rfl
  | succ k ih =>
    intro hk
    have ihk := ih (by omega)
    rw [sortStrings_succ, specSort_succ, ← ihk]
    cases hs : sortStrings a ((k : Nat) : Int) with
    | none => rfl
    | some r =>
      obtain ⟨srt, h1, h2, h3⟩ := (sortStrings_inv a k (by omega)).1 r hs
      have hlen : srt.length = k := by
        rw [h2.length_eq, List.length_take]
        omega
      have hdrop : a.drop k = a[k] :: a.drop (k + 1) := List.drop_eq_getElem_cons (by omega)
      have hr : r = ⟨srt ++ a[k] :: a.drop (k + 1), r.comparisons, r.swaps⟩ := by
        cases r
        simp only [SortState.mk.injEq, and_true] at h1 ⊢
        rw [h1, hdrop]
      have key := innerLoop_eq_specWalk srt h3 a[k] (a.drop (k + 1)) r.comparisons r.swaps
      rw [hlen, ← hr] at key
      simp only [Option.some_bind, Option.map_some', Option.some_bind]
      rw [key, h1, hdrop]

/-! ## The reads of `compare` -/

/-- The logged loop returns what the loop of `compare` returns. -/
theorem compareLog_fst (p : List Int) :
    ∀ (q : List Int) (i : Nat), (compareLog i p q).1 = compareAt p q := by
  induction p with
  | nil => intro q i; simp [compareLog, compareAt]
  | cons x p ih =>
    intro q i
    cases q with
    | nil => simp [compareLog, compareAt]
    | cons y q =>
      rw [compareLog, compareAt]
      by_cases hxy : x = y
      · simp only [if_pos hxy]
        cases hp : p.head? with
        | none => rfl
        | some x' =>
          by_cases hx' : x' = 0
          · simp only [if_pos hx']
          · simp only [if_neg hx']
            exact ih q (i + 1)
      · simp only [if_neg hxy]

/-- Unless both strings are empty, every read of `compare` started at index `i`
is at most `i` plus the length of the string read, the index of its
terminator. -/
theorem compareLog_reads (a : CStr) :
    ∀ (b : CStr) (i : Nat), ¬ (a = [] ∧ b = []) →
      ∀ (w : Bool) (j : Nat), (w, j) ∈ (compareLog i (bytes a) (bytes b)).2 →
        j ≤ i + (if w then a.length else b.length) := by
  induction a with
  | nil =>
    intro b i h w j hmem
    cases b with
    | nil => exact absurd ⟨rfl, rfl⟩ h
    | cons d b =>
      have hd : (0 : Int) ≠ d.1 := Ne.symm (coe_ne d)
      simp only [bytes_nil, bytes_cons, compareLog, if_neg hd, List.mem_cons, Prod.mk.injEq,
        List.mem_nil_iff, or_false] at hmem
      rcases hmem with h1 | h1 | h1 | h1 <;> omega
  | cons c a ih =>
    intro b i _ w j hmem
    cases b with
    | nil =>
      have hc : c.1 ≠ 0 := coe_ne c
      simp only [bytes_nil, bytes_cons, compareLog, if_neg hc, List.mem_cons, Prod.mk.injEq,
        List.mem_nil_iff, or_false] at hmem
      rcases hmem with h1 | h1 | h1 | h1 <;> omega
    | cons d b =>
      rw [bytes_cons, bytes_cons, compareLog] at hmem
      by_cases hcd : c.1 = d.1
      · simp only [if_pos hcd] at hmem
        cases a with
        | nil =>
          simp only [bytes_nil, List.head?_cons, if_true, List.mem_cons, Prod.mk.injEq,
            List.mem_nil_iff, or_false] at hmem
          rcases hmem with h1 | h1 | h1
          · obtain ⟨rfl, rfl⟩ := h1
            simp
          · obtain ⟨rfl, rfl⟩ := h1
            simp
          · obtain ⟨rfl, rfl⟩ := h1
            simp
        | cons e a =>
          have he : e.1 ≠ 0 := coe_ne e
          simp only [bytes_cons, List.head?_cons, if_neg he, List.mem_cons, Prod.mk.injEq] at hmem
          rcases hmem with h1 | h1 | h1 | h1
          · obtain ⟨rfl, rfl⟩ := h1
            simp
          · obtain ⟨rfl, rfl⟩ := h1
            simp
          · obtain ⟨rfl, rfl⟩ := h1
            simp
          · have key := ih b (i + 1) (fun h' => List.cons_ne_nil e a h'.1) w j
              (by simpa only [bytes_cons] using h1)
            cases w with
            | true =>
              simp only [if_true, List.length_cons] at key ⊢
              omega
            | false =>
              simp only [Bool.false_eq_true, if_false, List.length_cons] at key ⊢
              omega
      · simp only [if_neg hcd, List.mem_cons, Prod.mk.injEq, List.mem_nil_iff, or_false] at hmem
        rcases hmem with h1 | h1 | h1 | h1 <;> omega

/-! ## Further properties of `stringSort.c` -/

/-- C11: for every array of non-empty strings, `sortStrings`, whose inner loop
always runs `m` from `n` down to 1, returns, and the array it leaves is
exactly the one left by the insertion sort of the specification, whose
backward walk stops at the first predecessor already in order or at the
start of the array. -/
theorem sortStrings_refines_specSort (a : List CStr) (h : ∀ s ∈ a, s ≠ []) :
    ∃ r, sortStrings a (a.length : Int) = some r ∧ specSort a (a.length : Int) = some r.a := by
  have hcount : a.count [] ≤ 1 := by
    have h0 : a.count [] = 0 := List.count_eq_zero.2 (fun hmem => h [] hmem rfl)
    omega
  obtain ⟨r, hr, _, _⟩ := sortStrings_returns a hcount
  refine ⟨r, hr, ?_⟩
  have key := sortStrings_eq_specSort a a.length (le_refl _)
  rw [hr] at key
  exact key.symm

/-- C11 on the array of `main`. -/
theorem sortStrings_refines_specSort_witness :
    (∀ s ∈ names, s ≠ []) ∧
    ∃ r, sortStrings names (names.length : Int) = some r ∧
      specSort names (names.length : Int) = some r.a :=
  ⟨by decide, sortStrings_refines_specSort names (by decide)⟩

/-- C12, as stated, fails on a host where `char` is signed: the array
`["a", "a\xc8"]` of non-empty strings has `compare("a", "a\xc8") = 0`, so it
is sorted as the specification tests it, yet `sortStrings` swaps its two
cells, because `compare("a\xc8", "a")` is -56. -/
theorem sorted_input_swapped_signed_char :
    (∀ s ∈ [ofCodes true [97], ofCodes true [97, 200]], s ≠ []) ∧
    compare (ofCodes true [97]) (ofCodes true [97, 200]) = some 0 ∧
    compare (ofCodes true [97, 200]) (ofCodes true [97]) = some (-56) ∧
    sortStrings [ofCodes true [97], ofCodes true [97, 200]] 2
      = some ⟨[ofCodes true [97, 200], ofCodes true [97]], 1, 1⟩ := by
  decide

/-- C12, amended: for every array of non-empty strings whose characters all
have a positive `char` value (the 7-bit characters, and every character
where `char` is unsigned) and in which every adjacent pair satisfies
`compare(a[i], a[i+1]) <= 0`, `sortStrings` returns having swapped nothing
and leaves the array as it was. -/
theorem sortStrings_sorted_input (a : List CStr) (_hne : ∀ s ∈ a, s ≠ [])
    (hpos : ∀ s ∈ a, ∀ c ∈ s, 0 < c.1)
    (hs : ∀ (i : Nat) (u v : CStr), a[i]? = some u → a[i + 1]? = some v →
      ∃ w, compare u v = some w ∧ w ≤ 0) :
    ∃ c, sortStrings a (a.length : Int) = some ⟨a, c, 0⟩ := by
  have hch : List.Chain' Ordered a := by
    apply chain_of_getElem
    intro i u v hu hv
    obtain ⟨w, hw, hle⟩ := hs i u v hu hv
    exact compare_nonpos_ordered u v w (hpos v (List.getElem?_mem hv)) hw hle
  exact sortStrings_ordered a hch a.length (le_refl _)

/-- The amended C12 on the array `["ab", "abc"]`, for which
`compare("ab", "abc")` is 0. -/
theorem sortStrings_sorted_input_witness :
    (∀ s ∈ [lit "ab", lit "abc"], s ≠ []) ∧
    (∀ s ∈ [lit "ab", lit "abc"], ∀ c ∈ s, 0 < c.1) ∧
    compare (lit "ab") (lit "abc") = some 0 ∧
    ∃ c, sortStrings [lit "ab", lit "abc"] (([lit "ab", lit "abc"] : List CStr).length : Int)
      = some ⟨[lit "ab", lit "abc"], c, 0⟩ :=
  ⟨by decide, by decide, by decide,
    sortStrings_sorted_input [lit "ab", lit "abc"] (by decide) (by decide) (by
      intro i u v hu hv
      cases i with
      | zero =>
        simp only [List.getElem?_cons_zero, Option.some.injEq, zero_add,
          List.getElem?_cons_succ] at hu hv
        subst hu
        subst hv
        exact ⟨0, by decide, le_refl _⟩
      | succ i => simp at hv)⟩

/-- C13: for every array of non-empty strings and every `k` up to its length,
after `k` turns of the outer loop (the whole sort when `k` is the length)
`sortStrings` has returned and no adjacent pair of the first `k` cells is out
of order as the sort tests it: `compare(a[i+1], a[i]) >= 0` for `i + 1 < k`. -/
theorem sortStrings_loop_invariant (a : List CStr) (h : ∀ s ∈ a, s ≠ []) (k : Nat)
    (hk : k ≤ a.length) :
    ∃ r, sortStrings a (k : Int) = some r ∧
      ∀ i : Nat, i + 1 < k →
        ∃ (u v : CStr) (w : Int),
          r.a[i]? = some u ∧ r.a[i + 1]? = some v ∧ compare v u = some w ∧ 0 ≤ w := by
  have h0 : a.count [] = 0 := List.count_eq_zero.2 (fun hmem => h [] hmem rfl)
  obtain ⟨h1, h2⟩ := sortStrings_inv a k hk
  cases hs : sortStrings a (k : Int) with
  | none =>
    have := h2 hs
    omega
  | some r =>
    obtain ⟨srt, g1, g2, g3⟩ := h1 r hs
    have hlen : srt.length = k := by
      rw [g2.length_eq, List.length_take]
      omega
    refine ⟨r, rfl, ?_⟩
    intro i hi
    have e1 : r.a[i]? = some srt[i] := by
      rw [g1, List.getElem?_append_left (by omega), List.getElem?_eq_getElem]
    have e2 : r.a[i + 1]? = some srt[i + 1] := by
      rw [g1, List.getElem?_append_left (by omega), List.getElem?_eq_getElem]
    obtain ⟨w, hw, hpos⟩ := chain_getElem srt g3 i srt[i] srt[i + 1]
      (List.getElem?_eq_getElem (by omega)) (List.getElem?_eq_getElem (by omega))
    exact ⟨srt[i], srt[i + 1], w, e1, e2, hw, hpos⟩

/-- C13 on the array of `main`, after all four turns. -/
theorem sortStrings_loop_invariant_witness :
    (∀ s ∈ names, s ≠ []) ∧ 4 ≤ names.length ∧
    ∃ r, sortStrings names ((4 : Nat) : Int) = some r ∧
      ∀ i : Nat, i + 1 < 4 →
        ∃ (u v : CStr) (w : Int),
          r.a[i]? = some u ∧ r.a[i + 1]? = some v ∧ compare v u = some w ∧ 0 ≤ w :=
  ⟨by decide, by decide, sortStrings_loop_invariant names (by decide) 4 (by decide)⟩

/-- C14, as stated, fails on a host where `char` is signed: in the array
`["a", "\xc8"]` no string is empty or begins another, and `sortStrings`
leaves `["\xc8", "a"]`, since `compare("\xc8", "a")` is -153; the codes 200
of the first and 97 of the second are not in non-decreasing order. -/
theorem sorted_output_not_lexicographic :
    (∀ s ∈ [ofCodes true [97], ofCodes true [200]], s ≠ []) ∧
    (∀ s ∈ [ofCodes true [97], ofCodes true [200]],
      ∀ t ∈ [ofCodes true [97], ofCodes true [200]], s <+: t → s = t) ∧
    compare (ofCodes true [200]) (ofCodes true [97]) = some (-153) ∧
    sortStrings [ofCodes true [97], ofCodes true [200]] 2
      = some ⟨[ofCodes true [200], ofCodes true [97]], 1, 1⟩ ∧
    (ofCodes true [200]).map code = [200] ∧ (ofCodes true [97]).map code = [97] ∧
    ¬ ((ofCodes true [200]).map code = (ofCodes true [97]).map code ∨
      List.Lex (· < ·) ((ofCodes true [200]).map code) ((ofCodes true [97]).map code)) := by
  decide

/-- C14, amended: for every array of non-empty strings whose characters all
have a positive `char` value (the 7-bit characters, and every character
where `char` is unsigned) and in which no string is a proper initial segment
of another, `sortStrings` returns an array in non-decreasing lexicographic
order (the codes of each string equal or lexicographically precede those of
every later one), and every adjacent pair satisfies
`compare(a[i], a[i+1]) <= 0`. -/
theorem sortStrings_lexicographic (a : List CStr) (h1 : ∀ s ∈ a, s ≠ [])
    (hpos : ∀ s ∈ a, ∀ c ∈ s, 0 < c.1)
    (h2 : ∀ s ∈ a, ∀ t ∈ a, s <+: t → s = t) :
    ∃ r, sortStrings a (a.length : Int) = some r ∧
      List.Pairwise (fun u v => u.map code = v.map code ∨
        List.Lex (· < ·) (u.map code) (v.map code)) r.a ∧
      ∀ (i : Nat) (u v : CStr), r.a[i]? = some u → r.a[i + 1]? = some v →
        ∃ w, compare u v = some w ∧ w ≤ 0 := by
  have hcount : a.count [] ≤ 1 := by
    have h0 : a.count [] = 0 := List.count_eq_zero.2 (fun hmem => h1 [] hmem rfl)
    omega
  obtain ⟨r, hr, hperm, hch⟩ := sortStrings_returns a hcount
  have hboth : List.Chain'
      (fun u v => (∃ w, compare u v = some w ∧ w ≤ 0) ∧
        (u.map code = v.map code ∨ List.Lex (· < ·) (u.map code) (v.map code))) r.a := by
    refine (List.Chain'.iff_mem.1 hch).imp ?_
    rintro u v ⟨hu, hv, w, hw, hwpos⟩
    have hua : u ∈ a := hperm.mem_iff.1 hu
    have hva : v ∈ a := hperm.mem_iff.1 hv
    obtain ⟨w', hw', hor⟩ := compare_nonneg_swap v u w hw hwpos
    have hle : w' ≤ 0 := by
      rcases hor with hle | ⟨hp, hne⟩
      · exact hle
      · exact absurd (h2 v hva u hua hp) hne
    refine ⟨⟨w', hw', hle⟩, ?_⟩
    by_cases hneg : w' < 0
    · exact Or.inr (compare_neg_lex u v w' (hpos u hua) (hpos v hva) hw' hneg)
    · have hw0 : w' = 0 := by omega
      subst hw0
      exact Or.inl (congrArg (List.map code) (h2 u hua v hva (compare_zero_initial u v hw').2))
  refine ⟨r, hr, ?_, ?_⟩
  · have htrans : IsTrans CStr (fun u v => u.map code = v.map code ∨
        List.Lex (· < ·) (u.map code) (v.map code)) := by
      constructor
      intro u v w huv hvw
      rcases huv with huv | huv
      · rw [huv]
        exact hvw
      · rcases hvw with hvw | hvw
        · rw [← hvw]
          exact Or.inr huv
        · exact Or.inr (@IsTrans.trans (List Nat) (List.Lex (· < ·)) _ _ _ _ huv hvw)
    exact List.chain'_iff_pairwise.1 (hboth.imp (fun _ _ hb => hb.2))
  · intro i u v hu hv
    exact (chain_getElem r.a hboth i u v hu hv).1

/-- The amended C14 on the array of `main`, whose names are non-empty, of
7-bit characters, and none of which begins another. -/
theorem sortStrings_lexicographic_witness :
    (∀ s ∈ names, s ≠ []) ∧ (∀ s ∈ names, ∀ c ∈ s, 0 < c.1) ∧
    (∀ s ∈ names, ∀ t ∈ names, s <+: t → s = t) ∧
    ∃ r, sortStrings names (names.length : Int) = some r ∧
      List.Pairwise (fun u v => u.map code = v.map code ∨
        List.Lex (· < ·) (u.map code) (v.map code)) r.a ∧
      ∀ (i : Nat) (u v : CStr), r.a[i]? = some u → r.a[i + 1]? = some v →
        ∃ w, compare u v = some w ∧ w ≤ 0 :=
  ⟨by decide, by decide, by decide,
    sortStrings_lexicographic names (by decide) (by decide) (by decide)⟩

/-- C15: for every non-empty string `a` and every string `b`, `compare(a, b)`
returns 0 if and only if `b` begins with `a`; the zero result is not
symmetric: `compare("ab", "abc")` is 0 while `compare("abc", "ab")` is
positive. -/
theorem compare_zero_iff_initial (a b : CStr) (ha : a ≠ []) :
    (compare a b = some 0 ↔ a <+: b) ∧
    (compare (lit "ab") (lit "abc") = some 0 ∧
      ∃ w, compare (lit "abc") (lit "ab") = some w ∧ 0 < w) :=
  ⟨⟨fun h => (compare_zero_initial a b h).2, fun h => compare_of_initial a b ha h⟩,
    by decide, 99, by decide, by decide⟩

/-- C15 on `"Cory"` and `"Ross"`: the result is not 0 and neither begins the other. -/
theorem compare_zero_iff_initial_witness :
    lit "Cory" ≠ [] ∧
    ((compare (lit "Cory") (lit "Ross") = some 0 ↔ lit "Cory" <+: lit "Ross") ∧
      (compare (lit "ab") (lit "abc") = some 0 ∧
        ∃ w, compare (lit "abc") (lit "ab") = some w ∧ 0 < w)) :=
  ⟨by decide, compare_zero_iff_initial (lit "Cory") (lit "Ross") (by decide)⟩

/-- C16: for strings `a` and `b` that are not both empty, `compare(a, b)`
returns a value, and every read it makes of `a` or of `b` is at an index no
greater than the length of that string, the index of its terminator; on two
empty strings it reads `a` at index 1, where the object holds nothing, and
returns no value. -/
theorem compare_reads_in_bounds (a b : CStr) (h : ¬ (a = [] ∧ b = [])) :
    (∃ v, compare a b = some v ∧ (compareLog 0 (bytes a) (bytes b)).1 = some v) ∧
    (∀ (w : Bool) (j : Nat), (w, j) ∈ (compareLog 0 (bytes a) (bytes b)).2 →
      j ≤ (if w then a.length else b.length)) ∧
    (compareLog 0 (bytes []) (bytes [])
        = (none, [(true, 0), (false, 0), (true, 1)]) ∧
      (bytes [])[1]? = none ∧ compare [] [] = none) := by
  refine ⟨?_, ?_, by decide⟩
  · obtain ⟨v, hv⟩ := compare_total a b h
    refine ⟨v, hv, ?_⟩
    rw [compareLog_fst]
    exact hv
  · intro w j hmem
    have key := compareLog_reads a b 0 h w j hmem
    simpa using key

/-- C16 on `"ab"` and `"abc"`: six reads, all inside the two objects. -/
theorem compare_reads_in_bounds_witness :
    ¬ (lit "ab" = [] ∧ lit "abc" = []) ∧
    ((∃ v, compare (lit "ab") (lit "abc") = some v ∧
        (compareLog 0 (bytes (lit "ab")) (bytes (lit "abc"))).1 = some v) ∧
      (∀ (w : Bool) (j : Nat), (w, j) ∈ (compareLog 0 (bytes (lit "ab")) (bytes (lit "abc"))).2 →
        j ≤ (if w then (lit "ab").length else (lit "abc").length)) ∧
      (compareLog 0 (bytes []) (bytes [])
          = (none, [(true, 0), (false, 0), (true, 1)]) ∧
        (bytes [])[1]? = none ∧ compare [] [] = none)) :=
  ⟨by decide, compare_reads_in_bounds (lit "ab") (lit "abc") (by decide)⟩

end StringSort

namespace VoidPointer

/-! ## Properties of `voidPointer.c` -/

/-- C9, as stated, fails: the value of `x` is not 1129270867, and the third
line printed is not that number, on a host of either byte order. -/
theorem x_is_not_1129270867 :
    x ≠ some 1129270867 ∧
    ∀ littleEndian : Bool, (main littleEndian).bind (fun out => out[2]?) ≠ some "1129270867" := by
  decide

/-- C9, amended: the packed integer
`x = (67 << 0) + (79 << 8) + (82 << 16) + (89 << 24)` has the numeric value
1498566467, which is the third line the program prints, on a host of either
byte order. -/
theorem x_value :
    x = some 1498566467 ∧
    ∀ littleEndian : Bool, (main littleEndian).bind (fun out => out[2]?) = some "1498566467" := by
  decide

/-- C10: for the packed integer `x`, the byte `(x >> (8 * k)) mod 256` at
offset `k = 0, 1, 2, 3` is 67, 79, 82, 89, the codes of `C`, `O`, `R`, `Y`,
so that on a little-endian host the reads at offsets 0 to 3 yield these four
bytes in construction order and the last line printed is `CORY`. -/
theorem x_lanes :
    ∃ v, x = some v ∧
      (v >>> (8 * 0)) % 256 = 67 ∧ (v >>> (8 * 1)) % 256 = 79 ∧
      (v >>> (8 * 2)) % 256 = 82 ∧ (v >>> (8 * 3)) % 256 = 89 ∧
      readByte true v 0 = some 67 ∧ readByte true v 1 = some 79 ∧
      readByte true v 2 = some 82 ∧ readByte true v 3 = some 89 ∧
      Char.ofNat 67 = 'C' ∧ Char.ofNat 79 = 'O' ∧ Char.ofNat 82 = 'R' ∧ Char.ofNat 89 = 'Y' ∧
      (main true).bind (fun out => out[3]?) = some "CORY" :=
  ⟨1498566467, by decide⟩

/-- C17: in the computation of `x` every shifted term and every partial sum
lies in `[0, 2^31)`, so that no operation overflows a 32-bit `int`; the four
shifted terms have no bit in common, and the sum is their bitwise OR. -/
theorem x_no_overflow :
    ∃ t0 t1 t2 t3 s1 s2 s3 : Int,
      shl 67 0 = some t0 ∧ shl 79 8 = some t1 ∧ shl 82 16 = some t2 ∧ shl 89 24 = some t3 ∧
      add t0 t1 = some s1 ∧ add s1 t2 = some s2 ∧ add s2 t3 = some s3 ∧ x = some s3 ∧
      (∀ v ∈ [t0, t1, t2, t3, s1, s2, s3], 0 ≤ v ∧ v < 2 ^ 31) ∧
      Int.land t0 t1 = 0 ∧ Int.land t0 t2 = 0 ∧ Int.land t0 t3 = 0 ∧
      Int.land t1 t2 = 0 ∧ Int.land t1 t3 = 0 ∧ Int.land t2 t3 = 0 ∧
      s3 = Int.lor (Int.lor (Int.lor t0 t1) t2) t3 :=
  ⟨67, 20224, 5373952, 1493172224, 20291, 5394243, 1498566467, by decide⟩

end VoidPointer
